import Mathlib

/-!
Verification of the dnsconn protocol engine (Go sources) against its
natural-language specification.  The Go code is shallowly embedded:
byte strings are lists of natural numbers (each the value of one byte),
stateful methods become functions from a state structure to a new state,
machine integers are naturals reduced modulo 2^32 or 2^64 exactly where the
Go code can overflow, and fallible Go functions return Option or Except.
-/

namespace Dnsconn

/-- ASCII code of the dot character, the DNS label separator. -/
def dotB : Nat := 46

/-- ASCII code of the hyphen character. -/
def hyphenB : Nat := 45

/-- Bytes of a string literal, used to build concrete test inputs. -/
def strBytes (s : String) : List Nat := s.toList.map Char.toNat

/-- removeDots deletes every dot byte from a byte string.  It models the
`strings.Replace(q, ".", "", -1)` call in handleQuestion and the dot-removal
half of removeDotsAndHyphens in dnsconnserver/handle_query.go. -/
def removeDots (s : List Nat) : List Nat := s.filter (fun b => b ≠ dotB)

/-- removeDotsAndHyphens deletes every dot and hyphen byte from a byte
string, as done by the strings.NewReplacer in
dnsconnserver/handle_query.go before a query is decoded. -/
def removeDotsAndHyphens (s : List Nat) : List Nat :=
  s.filter (fun b => b ≠ dotB ∧ b ≠ hyphenB)

/-- Per-byte upper-casing as applied by strings.ToUpper to the ASCII bytes
that occur in dnsconn query names. -/
def toUpperByte (b : Nat) : Nat := if 97 ≤ b ∧ b ≤ 122 then b - 32 else b

/-- Per-byte lower-casing as applied by unicode.ToLower in the lowercasing
loop of Client.marshalPayload (dnsconnclient/client.go).  Bytes 0xC0-0xDE
other than 0xD7 are Latin-1 capitals which unicode.ToLower also shifts by
32; all bytes actually produced by the encoder are ASCII. -/
def toLowerByte (b : Nat) : Nat :=
  if 65 ≤ b ∧ b ≤ 90 then b + 32
  else if 192 ≤ b ∧ b ≤ 222 ∧ b ≠ 215 then b + 32
  else b

/-! ## The answer cache (dnsconnserver cache.go)

The Go Cache keeps a container/list queue `q` of cacheEntry values
(front = oldest), a map `m` from key to list element used as an O(1) index
into the queue, a capacity `n` and an optional eviction callback.  Queue
elements are modelled with an explicit element id so that the map can be
represented as an association list from key to element id.  The eviction
callback is modelled by a log of the (key, value) pairs it was invoked
with, in invocation order. -/

/-- One element of the cache queue: a unique element id plus the
cacheEntry fields k and v. -/
structure CEntry (V : Type) where
  eid : Nat
  key : String
  val : V
  deriving Repr, DecidableEq

/-- The Cache structure of dnsconnserver: queue (front first), map from
key to queue-element id, a counter for fresh element ids, the capacity n,
and the log of eviction-callback invocations. -/
structure Cache (V : Type) where
  q : List (CEntry V)
  m : List (String × Nat)
  nextId : Nat
  n : Nat
  log : List (String × V)
  deriving Repr, DecidableEq

/-- A cache as returned by NewCache(n, onEvict): empty queue and map. -/
def emptyCache (V : Type) (n : Nat) : Cache V :=
  ⟨[], [], 0, n, []⟩

/-- Go map assignment m[key] = i. -/
def mapInsert (m : List (String × Nat)) (k : String) (i : Nat) :
    List (String × Nat) :=
  (k, i) :: m.filter (fun p => p.1 ≠ k)

/-- Go map deletion delete(m, key). -/
def mapErase (m : List (String × Nat)) (k : String) : List (String × Nat) :=
  m.filter (fun p => p.1 ≠ k)

/-- Go map lookup m[key]. -/
def mapGet (m : List (String × Nat)) (k : String) : Option Nat :=
  (m.find? (fun p => p.1 = k)).map (fun p => p.2)

/-- Cache.unlockedGet: look the key up in the map; on a hit move the
element to the back of the LRU queue and return its value.  (The Go code
skips the MoveToBack when the element is already at the back, which leaves
the queue in the same state this model produces.) -/
def Cache.unlockedGet {V : Type} (c : Cache V) (key : String) :
    Option V × Cache V :=
  match mapGet c.m key with
  | none => (none, c)
  | some i =>
    match c.q.find? (fun e => e.eid = i) with
    | none => (none, c)
    | some e =>
      (some e.val, { c with q := c.q.filter (fun x => x.eid ≠ i) ++ [e] })

/-- Cache.unlockedPut: if the queue is full evict the front (oldest)
entry, invoking the eviction callback with its key and value and removing
it from the map and queue; then append the new entry to the back of the
queue and point the map at it.  Returns whether an eviction happened.
(When the capacity is 0 and the queue empty the Go code would dereference
a nil front pointer; NewCache rejects capacities below 1, so that case is
unreachable and is modelled as a no-op eviction.) -/
def Cache.unlockedPut {V : Type} (c : Cache V) (key : String) (v : V) :
    Bool × Cache V :=
  let step :=
    if c.q.length = c.n then
      match c.q with
      | [] => (false, c)
      | f :: rest =>
        (true, { c with
                   q := rest
                   m := mapErase c.m f.key
                   log := c.log ++ [(f.key, f.val)] })
    else (false, c)
  let c1 := step.2
  (step.1, { c1 with
               q := c1.q ++ [⟨c1.nextId, key, v⟩]
               m := mapInsert c1.m key c1.nextId
               nextId := c1.nextId + 1 })

/-- Cache.Put (the lock around unlockedPut adds nothing to the
sequential model). -/
def Cache.put {V : Type} (c : Cache V) (key : String) (v : V) :
    Bool × Cache V :=
  c.unlockedPut key v

/-- Cache.GetOrPut: return the cached value for the key if present,
otherwise insert the offered value; either way the returned value is the
one the cache now holds for the key. -/
def Cache.getOrPut {V : Type} (c : Cache V) (key : String) (v : V) :
    V × Cache V :=
  match c.unlockedGet key with
  | (some w, c2) => (w, c2)
  | (none, c2) => (v, (c2.unlockedPut key v).2)

/-- Fold a list of key/value pairs through Cache.put, keeping only the
final cache (the Bool results of the intermediate calls are dropped). -/
def cachePutAll {V : Type} (c : Cache V) (ps : List (String × V)) : Cache V :=
  ps.foldl (fun c p => (c.put p.1 p.2).2) c

/-- The key/value pairs currently in the cache queue, oldest first. -/
def Cache.pairs {V : Type} (c : Cache V) : List (String × V) :=
  c.q.map (fun e => (e.key, e.val))

/-- While the cache is not yet full, puts append to the queue in order and
evict nothing. -/
theorem cachePutAll_no_evict {V : Type} :
    ∀ (ps : List (String × V)) (c : Cache V),
      c.q.length + ps.length ≤ c.n →
      (cachePutAll c ps).pairs = c.pairs ++ ps ∧
      (cachePutAll c ps).log = c.log ∧
      (cachePutAll c ps).n = c.n ∧
      (cachePutAll c ps).q.length = c.q.length + ps.length := by
  intro ps
  induction ps with
  | nil => intro c _; simp [cachePutAll, Cache.pairs]
  | cons p rest ih =>
    intro c hlen
    have hne : c.q.length ≠ c.n := by
      simp at hlen; omega
    have hstep : (c.put p.1 p.2).2 =
        { c with q := c.q ++ [⟨c.nextId, p.1, p.2⟩],
                 m := mapInsert c.m p.1 c.nextId,
                 nextId := c.nextId + 1 } := by
      simp [Cache.put, Cache.unlockedPut, hne]
    have hrec := ih ((c.put p.1 p.2).2)
    rw [hstep] at hrec
    simp at hrec
    have hrec2 := hrec (by simp at hlen ⊢; omega)
    have : cachePutAll c (p :: rest) = cachePutAll (c.put p.1 p.2).2 rest := by
      simp [cachePutAll]
    rw [this, hstep]
    refine ⟨?_, hrec2.2.1, hrec2.2.2.1, ?_⟩
    case refine_2 =>
      have h4 := hrec2.2.2.2
      simp only [List.length_cons]
      omega
    rw [hrec2.1]
    simp [Cache.pairs]

/-- C6: starting from an empty cache of capacity k ≥ 1, after putting k
distinct keys the (k+1)-th put of a fresh key evicts exactly the
oldest-inserted key (the queue afterwards holds keys 2..k+1 in order),
returns true, and invokes the eviction callback exactly once, with the
first key and its cached value. -/
theorem c6_cache_eviction {V : Type} (k : Nat) (hk : 1 ≤ k)
    (qs : List (String × V)) (p : String × V)
    (hlen : qs.length = k)
    (hdist : (qs ++ [p]).Pairwise (fun a b => a.1 ≠ b.1)) :
    ((cachePutAll (emptyCache V k) qs).put p.1 p.2).1 = true ∧
    ((cachePutAll (emptyCache V k) qs).put p.1 p.2).2.log = qs.take 1 ∧
    ((cachePutAll (emptyCache V k) qs).put p.1 p.2).2.pairs =
      qs.drop 1 ++ [p] := by
  set c1 := cachePutAll (emptyCache V k) qs with hc1
  set r := c1.put p.1 p.2 with hrdef
  have hbase := cachePutAll_no_evict qs (emptyCache V k)
    (by simp [emptyCache, hlen])
  have hq_pairs : c1.pairs = qs := by
    have := hbase.1; simpa [emptyCache, Cache.pairs] using this
  have hq_log : c1.log = [] := by
    have := hbase.2.1; simpa [emptyCache] using this
  have hq_n : c1.n = k := by
    have := hbase.2.2.1; simpa [emptyCache] using this
  have hq_len : c1.q.length = k := by
    have := hbase.2.2.2; simpa [emptyCache, hlen] using this
  have hfull : c1.q.length = c1.n := by rw [hq_len, hq_n]
  match hcq : c1.q with
  | [] =>
    exfalso
    rw [hcq] at hq_len
    simp at hq_len
    omega
  | f :: rest =>
    have hcond : rest.length + 1 = c1.n := by
      have : c1.q.length = rest.length + 1 := by rw [hcq]; simp
      omega
    have hput : r =
        (true, { c1 with
                   q := rest ++ [⟨c1.nextId, p.1, p.2⟩],
                   m := mapInsert (mapErase c1.m f.key) p.1 c1.nextId,
                   nextId := c1.nextId + 1,
                   log := c1.log ++ [(f.key, f.val)] }) := by
      show c1.put p.1 p.2 = _
      simp [Cache.put, Cache.unlockedPut, hfull, hcq, hcond]
    have hpairs_split : (f.key, f.val) :: rest.map (fun e => (e.key, e.val)) = qs := by
      have := hq_pairs
      rw [Cache.pairs, hcq] at this
      simpa using this
    refine ⟨by rw [hput], ?_, ?_⟩
    · rw [hput]
      simp [hq_log]
      cases qs with
      | nil => simp at hlen; omega
      | cons a as =>
        simp at hpairs_split
        simp [hpairs_split.1]
    · rw [hput]
      simp [Cache.pairs]
      cases qs with
      | nil => simp at hlen; omega
      | cons a as =>
        simp at hpairs_split
        simp [hpairs_split.2]

/-- Witness for c6_cache_eviction at capacity 2 with keys a, b, c. -/
theorem c6_cache_eviction_witness :
    let c1 := cachePutAll (emptyCache Nat 2) [("a", 10), ("b", 20)]
    let r := c1.put "c" 30
    r.1 = true ∧ r.2.log = [("a", 10)] ∧
    r.2.pairs = [("b", 20), ("c", 30)] := by
  have h := c6_cache_eviction 2 (by decide)
    [("a", 10), ("b", 20)] ("c", 30) (by decide)
    (by simp)
  simpa using h

/-! ## Server-side connections (dnsconnserver/conn.go)

A Conn keeps a network-to-client queue n2cQ of received chunks together
with n2cNextIndex, the index of the next byte needed, and a
client-to-network buffer c2nBuf together with c2nIndex, the index of its
first byte.  The error that closed the connection is modelled as an
Option.  Replies are recorded as the arguments the handler passes to
question.PutUint (for psh) or question.Push (for req); uint counters are
values modulo 2^64. -/

/-- connbuflen, the proxy-buffer length of dnsconnserver/conn.go. -/
def connbuflen : Nat := 4096

/-- The errors conn.go can close a Conn with. -/
inductive ConnErr
  | localClosed
  | ackTooHigh
  | clientClosed
  deriving Repr, DecidableEq

/-- The fields of dnsconnserver.Conn that the psh/req handlers touch. -/
structure SConn where
  err : Option ConnErr
  n2cQ : List (List Nat)
  n2cNextIndex : Nat
  c2nBuf : List Nat
  c2nIndex : Nat
  deriving Repr, DecidableEq

/-- The chunking loop of Conn.psh: the payload is pushed onto n2cQ in
pieces of at most connbuflen bytes. -/
def pushChunks (p : List Nat) : List (List Nat) :=
  if h : p = [] then []
  else p.take connbuflen :: pushChunks (p.drop connbuflen)
termination_by p.length
decreasing_by
  simp only [List.length_drop]
  have hp : 0 < p.length := List.length_pos.mpr h
  simp [connbuflen]
  omega

/-- Concatenating the chunks gives back the payload. -/
theorem pushChunks_flatten (p : List Nat) : (pushChunks p).flatten = p := by
  have main : ∀ (fuel : Nat) (p : List Nat), p.length ≤ fuel →
      (pushChunks p).flatten = p := by
    intro fuel
    induction fuel with
    | zero =>
      intro p hp
      have hnil : p = [] := by
        cases p with
        | nil => rfl
        | cons a r => simp at hp
      simp [hnil, pushChunks]
    | succ n ih =>
      intro p hp
      by_cases h : p = []
      · simp [h, pushChunks]
      · rw [pushChunks]
        simp [h]
        rw [ih (p.drop connbuflen)]
        · exact List.take_append_drop connbuflen p
        · have hlen : 0 < p.length := List.length_pos.mpr h
          simp [connbuflen]
          omega
  exact main p.length p le_rfl

/-- Conn.CloseError: set the closing error if not already set, wake the
Read-servicing goroutine by queueing an empty chunk, and drop the
client-to-network buffer.  A second close is a no-op. -/
def SConn.closeError (c : SConn) (e : ConnErr) : SConn :=
  match c.err with
  | some _ => c
  | none => { c with err := some e, n2cQ := c.n2cQ ++ [[]], c2nBuf := [] }

/-- Conn.psh: handle a Data (push) message carrying payload bytes at a
given sequence index.  Returns the new connection state, the
(value, okFlag) pair passed to question.PutUint for the answer (none when
no answer was set), and the returned error. -/
def SConn.psh (c : SConn) (index : Nat) (payload : List Nat) :
    SConn × Option (Nat × Bool) × Option ConnErr :=
  match c.err with
  | some e => (c, none, some e)
  | none =>
    if payload.length = 0 then (c, none, none)
    else if index ≠ c.n2cNextIndex then
      (c, some (c.n2cNextIndex, true), none)
    else
      let ni := (c.n2cNextIndex + payload.length) % 2 ^ 64
      ({ c with n2cQ := c.n2cQ ++ pushChunks payload, n2cNextIndex := ni },
       some (ni, true), none)

/-- Conn.req: handle a data-request message.  dataLen is the value of
qn.DataLen() for the question type.  Returns the new connection state,
the (bytes, lastIndex) pair passed to qn.Push for the answer (none when
no answer was set), and the returned error.  The go c.CloseError call of
the ack-too-high branch is modelled as taking effect immediately. -/
def SConn.req (dataLen : Nat) (c : SConn) (index : Nat) :
    SConn × Option (List Nat × Nat) × Option ConnErr :=
  match c.err with
  | some e => (c, none, some e)
  | none =>
    if c.c2nBuf.length = 0 then (c, none, none)
    else if index < c.c2nIndex then (c, none, none)
    else
      let step : Option SConn :=
        if c.c2nIndex < index then
          let off := index - c.c2nIndex
          if c.c2nBuf.length < off then none
          else some { c with c2nBuf := c.c2nBuf.drop off, c2nIndex := index }
        else some c
      match step with
      | none => (c.closeError .ackTooHigh, none, some .ackTooHigh)
      | some c2 =>
        let n := min dataLen c2.c2nBuf.length
        (c2, some (c2.c2nBuf.take n, (c2.c2nIndex + n - 1) % 2 ^ 64), none)

/-- C1: on an open connection, a push with a non-empty payload whose index
equals n2cNextIndex appends the payload (in chunks) to the inbound queue,
advances n2cNextIndex by exactly the payload length, and answers with the
new index; a push with any other index changes nothing and answers with
the unchanged n2cNextIndex. -/
theorem c1_push_in_order (c : SConn) (index : Nat) (payload : List Nat)
    (hopen : c.err = none) (hp : payload ≠ [])
    (hof : c.n2cNextIndex + payload.length < 2 ^ 64) :
    (index = c.n2cNextIndex →
      ((c.psh index payload).1.n2cQ.flatten = c.n2cQ.flatten ++ payload ∧
       (c.psh index payload).1.n2cNextIndex =
         c.n2cNextIndex + payload.length ∧
       (c.psh index payload).2.1 =
         some (c.n2cNextIndex + payload.length, true) ∧
       (c.psh index payload).2.2 = none)) ∧
    (index ≠ c.n2cNextIndex →
      ((c.psh index payload).1 = c ∧
       (c.psh index payload).2.1 = some (c.n2cNextIndex, true) ∧
       (c.psh index payload).2.2 = none)) := by
  have hplen : payload.length ≠ 0 := by
    intro h
    exact hp (List.length_eq_zero.mp h)
  constructor
  · intro heq
    have hmod : (c.n2cNextIndex + payload.length) % 2 ^ 64 =
        c.n2cNextIndex + payload.length := Nat.mod_eq_of_lt hof
    simp [SConn.psh, hopen, hplen, heq, hmod, pushChunks_flatten]
    all_goals omega
  · intro hne
    simp [SConn.psh, hopen, hplen, hne]

/-- Witness for c1_push_in_order on a concrete open connection. -/
theorem c1_push_in_order_witness :
    let c : SConn := ⟨none, [[9]], 1, [], 0⟩
    ((c.psh 1 [2, 3]).1.n2cQ.flatten = [9, 2, 3] ∧
     (c.psh 1 [2, 3]).1.n2cNextIndex = 3 ∧
     (c.psh 1 [2, 3]).2.1 = some (3, true) ∧
     (c.psh 1 [2, 3]).2.2 = none) ∧
    ((c.psh 7 [2, 3]).1 = c ∧
     (c.psh 7 [2, 3]).2.1 = some (1, true) ∧
     (c.psh 7 [2, 3]).2.2 = none) := by
  intro c
  constructor
  · have h := (c1_push_in_order c 1 [2, 3] rfl (by decide) (by decide)).1 rfl
    simpa using h
  · exact (c1_push_in_order c 7 [2, 3] rfl (by decide) (by decide)).2
      (by decide)

/-- C5 fails as stated: on an open connection whose outbound buffer is
empty, a data request whose index exceeds c2nIndex plus the buffered
length (here 1 > 0 + 0) is answered with no error and the connection is
left open, not closed with ErrAckTooHigh. -/
theorem c5_ack_counterexample :
    let c : SConn := ⟨none, [], 0, [], 0⟩
    c.c2nIndex + c.c2nBuf.length < 1 ∧
    (SConn.req 3 c 1).1 = c ∧
    (SConn.req 3 c 1).1.err = none ∧
    (SConn.req 3 c 1).2.2 = none := by
  decide

/-- C5 amended: on an open connection whose outbound buffer is non-empty,
a data request whose index exceeds c2nIndex plus the buffered length
closes that connection with ErrAckTooHigh and returns ErrAckTooHigh. -/
theorem c5_ack_too_high (dataLen : Nat) (c : SConn) (index : Nat)
    (hopen : c.err = none) (hne : c.c2nBuf ≠ [])
    (hhigh : c.c2nIndex + c.c2nBuf.length < index) :
    (SConn.req dataLen c index).1.err = some .ackTooHigh ∧
    (SConn.req dataLen c index).2.1 = none ∧
    (SConn.req dataLen c index).2.2 = some .ackTooHigh := by
  have hblen : c.c2nBuf.length ≠ 0 := by
    intro h
    exact hne (List.length_eq_zero.mp h)
  have h1 : ¬ index < c.c2nIndex := by omega
  have h2 : c.c2nIndex < index := by omega
  have h3 : c.c2nBuf.length < index - c.c2nIndex := by omega
  simp [SConn.req, hopen, hblen, h1, h2, h3, SConn.closeError]

/-- Witness for c5_ack_too_high on a concrete connection. -/
theorem c5_ack_too_high_witness :
    let c : SConn := ⟨none, [], 0, [5, 6], 4⟩
    (SConn.req 3 c 9).1.err = some .ackTooHigh ∧
    (SConn.req 3 c 9).2.1 = none ∧
    (SConn.req 3 c 9).2.2 = some .ackTooHigh :=
  c5_ack_too_high 3 ⟨none, [], 0, [5, 6], 4⟩ 9 rfl (by decide) (by decide)

/-! ## The connection-ID allocator (cids.go, map-based version)

The Listener keeps a set freeCIDs of released CIDs (a Go
map[uint32]struct{}, modelled as a Finset) and freeCIDLast, the highest
CID handed out so far (a uint32, modelled modulo 2^32).  getCID draws an
arbitrary element from the set when it is non-empty; that choice is
modelled by a pick function supplied as a parameter.  A fresh Listener
has an empty set and freeCIDLast = 0 (precacheCIDs, which would pre-seed
CIDs 1..63, is defined in the source but never called). -/

/-- cidMAX, the highest CID the allocator hands out. -/
def cidMAX : Nat := 0x00ffffff

/-- cidCBMAX, the highest CID that encodes in one request byte. -/
def cidCBMAX : Nat := 63

/-- The CID-allocator state: the free set and freeCIDLast. -/
structure CidState where
  free : Finset Nat
  last : Nat
  deriving DecidableEq

/-- Listener.getCID: take an arbitrary member of the free set if one
exists (the choice is made by pick, standing for Go map iteration order);
otherwise, unless the space is exhausted, increment freeCIDLast and hand
it out.  Returns (cid, ok, new state). -/
def getCID (pick : Finset Nat → Nat) (s : CidState) : Nat × Bool × CidState :=
  if s.free.Nonempty then
    let c := pick s.free
    (c, true, ⟨s.free.erase c, s.last⟩)
  else if s.last = cidMAX then
    (0, false, s)
  else
    let l := (s.last + 1) % 2 ^ 32
    (l, true, ⟨s.free, l⟩)

/-- The shrink loop at the end of Listener.putCID: while freeCIDLast is a
multi-byte CID that is itself in the free set, remove it from the set and
decrement freeCIDLast. -/
def cidShrink : Nat → Finset Nat → Finset Nat × Nat
  | 0, free => (free, 0)
  | last + 1, free =>
    if cidCBMAX < last + 1 ∧ last + 1 ∈ free then
      cidShrink last (free.erase (last + 1))
    else
      (free, last + 1)

/-- Listener.putCID: one-byte CIDs always go back into the free set;
a multi-byte CID is added to the set only when a higher CID is still in
use; then freeCIDLast is decremented (unconditionally, with uint32 wrap)
and the shrink loop runs. -/
def putCID (s : CidState) (cid : Nat) : CidState :=
  if cid ≤ cidCBMAX then
    ⟨insert cid s.free, s.last⟩
  else
    let f := if cid < s.last then insert cid s.free else s.free
    let l := (s.last + 2 ^ 32 - 1) % 2 ^ 32
    let r := cidShrink l f
    ⟨r.1, r.2⟩

/-- One call in an allocator history: getCID, or putCID on a given CID. -/
inductive COp
  | alloc
  | release (cid : Nat)
  deriving Repr, DecidableEq

/-- Run one allocator call, tracking the set of live CIDs (those returned
by a successful getCID and not yet released). -/
def cidStep (pick : Finset Nat → Nat) (st : CidState × Finset Nat)
    (op : COp) : CidState × Finset Nat :=
  match op with
  | .alloc =>
    let r := getCID pick st.1
    (r.2.2, if r.2.1 then insert r.1 st.2 else st.2)
  | .release cid => (putCID st.1 cid, st.2.erase cid)

/-- Run a sequence of allocator calls from a given state. -/
def runCidOps (pick : Finset Nat → Nat) (st : CidState × Finset Nat)
    (ops : List COp) : CidState × Finset Nat :=
  ops.foldl (cidStep pick) st

/-- A call sequence is valid when every release is of a currently live
CID (the listener only ever returns CIDs of connections being torn
down). -/
def validCidOps (pick : Finset Nat → Nat) :
    CidState × Finset Nat → List COp → Bool
  | _, [] => true
  | st, op :: rest =>
    (match op with
     | .alloc => true
     | .release c => decide (c ∈ st.2)) &&
    validCidOps pick (cidStep pick st op) rest

/-- The initial allocator state of a fresh Listener, with no live
connections. -/
def cidInit : CidState × Finset Nat := (⟨∅, 0⟩, ∅)

/-- A pick function for histories in which the free set is empty at every
getCID call, so that the arbitrary map-iteration choice is never
consulted. -/
def pick0 : Finset Nat → Nat := fun _ => 0

/-- A call history violating CID uniqueness: allocate CIDs 1..65, release
CID 64 (live), allocate once more (returns 64 again). -/
def c3ops : List COp :=
  List.replicate 65 .alloc ++ [.release 64, .alloc]

set_option maxRecDepth 100000 in
/-- C3 fails on the code: after the valid call history c3ops (every
release is of a live CID), the free set is empty and the next getCID
returns CID 65 with ok = true even though CID 65 is still live — two
simultaneously live connections would hold the same CID.  The cause is
that putCID decrements freeCIDLast even when the released CID is not the
highest one handed out. -/
theorem c3_duplicate_live_cid :
    validCidOps pick0 cidInit c3ops = true ∧
    (runCidOps pick0 cidInit c3ops).1.free.card = 0 ∧
    (getCID pick0 (runCidOps pick0 cidInit c3ops).1).1 = 65 ∧
    (getCID pick0 (runCidOps pick0 cidInit c3ops).1).2.1 = true ∧
    65 ∈ (runCidOps pick0 cidInit c3ops).2 := by
  decide

/-! ## The server-side handshake (Client.handleKeyChunk)

A pending dnsconnserver.Client accumulates the peer's 32-byte public key
in the fixed array pubkey, with pklen counting the bytes received so far.
Once the key is complete the shared key is derived with box.Precompute
from the accumulated public key and the listener's private key; the
derivation itself is outside the embedding and is passed in as a
function parameter. -/

/-- FIRSTABYTE, the first byte of returned A records. -/
def FIRSTABYTE : Nat := 17

/-- The errors Client.handleKeyChunk can return. -/
inductive HsErr
  | pubkeyOverflow
  | unneededPubkeyChunk
  deriving Repr, DecidableEq

/-- The handshake-relevant fields of dnsconnserver.Client: the 32-byte
public-key buffer, the count of key bytes received, and the derived
shared key (none until key exchange completes). -/
structure HClient where
  pubkey : List Nat
  pklen : Nat
  sharedkey : Option (List Nat)
  deriving Repr, DecidableEq

/-- Client.handleKeyChunk: append the chunk (truncated to the bytes still
needed) to the public-key buffer, derive the shared key when the buffer
becomes complete, and answer with the running byte count in all three
value bytes; a chunk arriving after completion is answered with an
"unneeded pubkey chunk" error and a random A record (modelled as none),
leaving the state unchanged. -/
def handleKeyChunk (pre : List Nat → List Nat → List Nat)
    (priv : List Nat) (c : HClient) (p : List Nat) :
    HClient × Option (List Nat) × Option HsErr :=
  let e : Int := 32 - (c.pklen : Int)
  if e < 0 then (c, none, some .pubkeyOverflow)
  else if e = 0 then (c, none, some .unneededPubkeyChunk)
  else
    let endN := min e.toNat p.length
    let pk2 := c.pubkey.take c.pklen ++ p.take endN ++
      c.pubkey.drop (c.pklen + endN)
    let pl2 := c.pklen + endN
    let sk := if pl2 = 32 then some (pre pk2 priv) else c.sharedkey
    (⟨pk2, pl2, sk⟩, some [FIRSTABYTE, pl2, pl2, pl2], none)

/-- C4: while the key is incomplete, handleKeyChunk appends the chunk
(truncated to the bytes still needed) to the key buffer, answers with the
running count of key bytes in all three value bytes, and derives the
shared key exactly when the buffer reaches 32 bytes; once the key is
complete, a further chunk returns the "unneeded pubkey chunk" error and
leaves the state unchanged. -/
theorem c4_key_chunk (pre : List Nat → List Nat → List Nat)
    (priv : List Nat) (c : HClient) (p : List Nat)
    (hbuf : c.pubkey.length = 32) :
    (c.pklen < 32 →
      ((handleKeyChunk pre priv c p).1.pklen =
         c.pklen + min (32 - c.pklen) p.length ∧
       (handleKeyChunk pre priv c p).1.pubkey.take
           (c.pklen + min (32 - c.pklen) p.length) =
         c.pubkey.take c.pklen ++ p.take (min (32 - c.pklen) p.length) ∧
       (handleKeyChunk pre priv c p).2.1 =
         some [FIRSTABYTE,
               c.pklen + min (32 - c.pklen) p.length,
               c.pklen + min (32 - c.pklen) p.length,
               c.pklen + min (32 - c.pklen) p.length] ∧
       (handleKeyChunk pre priv c p).2.2 = none ∧
       (c.pklen + min (32 - c.pklen) p.length = 32 →
         (handleKeyChunk pre priv c p).1.sharedkey =
           some (pre (handleKeyChunk pre priv c p).1.pubkey priv)))) ∧
    (c.pklen = 32 →
      handleKeyChunk pre priv c p =
        (c, none, some .unneededPubkeyChunk)) := by
  constructor
  · intro hlt
    have he1 : ¬ ((32 : Int) - (c.pklen : Int) < 0) := by omega
    have he2 : ¬ ((32 : Int) - (c.pklen : Int) = 0) := by omega
    have htn : ((32 : Int) - (c.pklen : Int)).toNat = 32 - c.pklen := by
      omega
    have htake : (c.pubkey.take c.pklen ++
          (p.take (min (32 - c.pklen) p.length) ++
           c.pubkey.drop (c.pklen + min (32 - c.pklen) p.length))).take
          (c.pklen + min (32 - c.pklen) p.length) =
        c.pubkey.take c.pklen ++ p.take (min (32 - c.pklen) p.length) := by
      rw [List.take_append_eq_append_take]
      have hl1 : (c.pubkey.take c.pklen).length = c.pklen := by
        rw [List.length_take]
        omega
      rw [hl1]
      have : c.pklen + min (32 - c.pklen) p.length - c.pklen =
          min (32 - c.pklen) p.length := by omega
      rw [this]
      rw [List.take_append_eq_append_take]
      have hl2 : (p.take (min (32 - c.pklen) p.length)).length =
          min (32 - c.pklen) p.length := by
        rw [List.length_take]
        omega
      rw [hl2]
      simp [List.take_take]
    refine ⟨?_, ?_, ?_, ?_, ?_⟩
    · simp [handleKeyChunk, he1, he2, htn]
    · simp [handleKeyChunk, he1, he2, htn, htake]
    · simp [handleKeyChunk, he1, he2, htn]
    · simp [handleKeyChunk, he1, he2, htn]
    · intro hfull
      simp [handleKeyChunk, he1, he2, htn, hfull]
  · intro heq
    have he1 : ¬ ((32 : Int) - (c.pklen : Int) < 0) := by omega
    have he2 : (32 : Int) - (c.pklen : Int) = 0 := by omega
    simp [handleKeyChunk, he1, he2]

/-- Witness for c4_key_chunk: a client with 30 of 32 key bytes receives a
3-byte chunk; 2 bytes are taken, the count reaches 32, the shared key is
derived, and a subsequent chunk is rejected as unneeded. -/
theorem c4_key_chunk_witness :
    let c : HClient := ⟨List.replicate 30 1 ++ [0, 0], 30, none⟩
    let r := handleKeyChunk (fun a b => a ++ b) [9] c [7, 8, 5]
    (r.1.pklen = 32 ∧
     r.1.pubkey.take 32 = List.replicate 30 1 ++ [7, 8] ∧
     r.2.1 = some [FIRSTABYTE, 32, 32, 32] ∧
     r.2.2 = none ∧
     r.1.sharedkey = some (r.1.pubkey ++ [9])) ∧
    handleKeyChunk (fun a b => a ++ b) [9] r.1 [4] =
      (r.1, none, some .unneededPubkeyChunk) := by
  intro c r
  have h := c4_key_chunk (fun a b => a ++ b) [9] c [7, 8, 5] (by decide)
  have h1 := h.1 (by decide)
  constructor
  · refine ⟨?_, ?_, ?_, ?_, ?_⟩
    · simpa using h1.1
    · have := h1.2.1
      simpa using this
    · simpa using h1.2.2.1
    · exact h1.2.2.2.1
    · have := h1.2.2.2.2 (by decide)
      simpa using this
  · have hfull : r.1.pklen = 32 := by simpa using h1.1
    have hbuf2 : r.1.pubkey.length = 32 := by decide
    exact (c4_key_chunk (fun a b => a ++ b) [9] r.1 [4] hbuf2).2 hfull

/-! ## question.PutUint and question.DataLen (dnsconnserver/query.go)

PutUint caps its argument at the largest value the question type can
carry, writes it into an 8-byte big-endian buffer, skips leading zero
bytes and hands the rest to PutBytes.  The zero-skipping loop
`for ; 0 == buf[start]; start++` has no bound check; when every
remaining byte is zero it reads past the end of the buffer.  The model
returns the byte slice passed to PutBytes, or none when the loop runs
off the buffer (a Go index-out-of-range panic). -/

/-- The DNS question types handled by the library (handledType). -/
inductive QType
  | A
  | NS
  | CNAME
  | SOA
  | PTR
  | MX
  | TXT
  | AAAA
  | SRV
  deriving Repr, DecidableEq

/-- question.DataLen: the payload capacity in bytes of an answer of the
given type. -/
def dataLen : QType → Nat
  | .A => 3
  | .AAAA => 8
  | .TXT => 189
  | _ => 152

/-- The 8 big-endian bytes binary.BigEndian.PutUint64 writes for a uint64
value. -/
def beBytes8 (n : Nat) : List Nat :=
  [n / 2 ^ 56 % 256, n / 2 ^ 48 % 256, n / 2 ^ 40 % 256, n / 2 ^ 32 % 256,
   n / 2 ^ 24 % 256, n / 2 ^ 16 % 256, n / 2 ^ 8 % 256, n % 256]

/-- The Go expression (1<<(m*8))-1 at type uint (64 bits): a variable
shift by 64 or more bits yields 0, and subtracting 1 then wraps to the
maximum uint. -/
def capVal (m : Nat) : Nat :=
  ((1 <<< (8 * m)) % 2 ^ 64 + (2 ^ 64 - 1)) % 2 ^ 64

/-- The zero-skipping loop of PutUint: drop leading zero bytes; none when
the loop runs past the end of the buffer (buf[8], an index out of
range). -/
def skipLeadingZeros : List Nat → Option (List Nat)
  | [] => none
  | a :: r => if a = 0 then skipLeadingZeros r else some (a :: r)

/-- question.PutUint, up to the final PutBytes call: the byte slice
buf[start:] that is passed to PutBytes, or none when the zero-skipping
loop reads out of range. -/
def putUintData (t : QType) (n : Nat) : Option (List Nat) :=
  let m := dataLen t
  let n2 := if capVal m < n then capVal m else n
  let buf := beBytes8 n2
  let start := if 8 > m then 8 - m else 0
  skipLeadingZeros (buf.drop start)

/-- C10 fails on the code: PutUint(0, ok) does not terminate normally for
any handled question type — with value 0 every byte of the staging buffer
is zero, so the zero-skipping loop indexes past the buffer and panics
instead of answering with value 0.  For a non-zero value such as 1 the
function behaves normally (here passing the single byte 1 to
PutBytes). -/
theorem c10_putuint_zero_panics :
    (putUintData .A 0 = none ∧ putUintData .NS 0 = none ∧
     putUintData .CNAME 0 = none ∧ putUintData .SOA 0 = none ∧
     putUintData .PTR 0 = none ∧ putUintData .MX 0 = none ∧
     putUintData .TXT 0 = none ∧ putUintData .AAAA 0 = none ∧
     putUintData .SRV 0 = none) ∧
    putUintData .A 1 = some [1] ∧
    putUintData .A 0xabc123 = some [0xab, 0xc1, 0x23] := by
  decide

/-! ## Label splitting (dnsconnclient/encode.go and the earlier
SplitIntoLabels)

AddLabelDots dot-splits the first n bytes of a buffer in place by moving
each 63-byte chunk rightwards (starting from the rightmost chunk) and
writing a dot before it; SplitIntoLabels copies 63-byte chunks into an
output buffer, appending a dot after each full chunk.  Both are modelled
on lists; the in-place copy of AddLabelDots becomes an explicit
take/segment/drop recombination. -/

/-- removeDots of a dot-free list is the list itself. -/
theorem removeDots_eq_self {l : List Nat} (h : ∀ b ∈ l, b ≠ dotB) :
    removeDots l = l := by
  rw [removeDots, List.filter_eq_self]
  intro a ha
  simpa using h a ha

/-- removeDots distributes over append. -/
theorem removeDots_append (a b : List Nat) :
    removeDots (a ++ b) = removeDots a ++ removeDots b := by
  simp [removeDots]

/-- SplitIntoLabels (encode.go, 20181209 version): copy 63-byte chunks,
appending a dot after each full chunk; a final chunk shorter than 63
bytes is copied without a trailing dot. -/
def splitIntoLabels (q : List Nat) : List Nat :=
  if h : q.length < 63 then q
  else q.take 63 ++ dotB :: splitIntoLabels (q.drop 63)
termination_by q.length
decreasing_by
  simp only [List.length_drop]
  omega

/-- Deleting the dots out of SplitIntoLabels output restores the
original dot-free string. -/
theorem removeDots_splitIntoLabels (q : List Nat)
    (hnd : ∀ b ∈ q, b ≠ dotB) : removeDots (splitIntoLabels q) = q := by
  have main : ∀ (fuel : Nat) (q : List Nat), q.length ≤ fuel →
      (∀ b ∈ q, b ≠ dotB) → removeDots (splitIntoLabels q) = q := by
    intro fuel
    induction fuel with
    | zero =>
      intro q hq hnd
      have hnil : q = [] := by
        cases q with
        | nil => rfl
        | cons a r => simp at hq
      simp [hnil, splitIntoLabels, removeDots]
    | succ f ih =>
      intro q hq hnd
      by_cases h : q.length < 63
      · rw [splitIntoLabels]
        simp only [h, dite_true]
        exact removeDots_eq_self hnd
      · rw [splitIntoLabels]
        simp only [h, dite_false]
        rw [removeDots_append]
        have h1 : removeDots (q.take 63) = q.take 63 :=
          removeDots_eq_self (fun b hb => hnd b (List.mem_of_mem_take hb))
        have h2 : removeDots (dotB :: splitIntoLabels (q.drop 63)) =
            removeDots (splitIntoLabels (q.drop 63)) := by
          simp [removeDots]
        have h3 : removeDots (splitIntoLabels (q.drop 63)) = q.drop 63 := by
          apply ih
          · simp only [List.length_drop]
            omega
          · intro b hb
            exact hnd b (List.mem_of_mem_drop hb)
        rw [h1, h2, h3, List.take_append_drop]
  exact main q.length q le_rfl hnd

/-- One iteration of the AddLabelDots loop: Go's
copy(q[start+chunk:end+chunk], q[start:end]) followed by
q[start+chunk-1] = dot, on an explicit list. -/
def goCopyDot (q : List Nat) (s e k : Nat) : List Nat :=
  (q.take (s + k) ++ ((q.drop s).take (e - s) ++ q.drop (e + k))).set
    (s + k - 1) dotB

/-- The AddLabelDots loop, iterating chunk = c, c-1, ..., 1 with
start = 63*chunk and end = min(start+63, n). -/
def aldLoop (q : List Nat) (n : Nat) : Nat → List Nat
  | 0 => q
  | c + 1 =>
    aldLoop (goCopyDot q (63 * (c + 1)) (min (63 * (c + 1) + 63) n) (c + 1))
      n c

/-- AddLabelDots (dnsconnclient/encode.go): check the buffer has room for
the dots, return the first n bytes unchanged when they fit in one label,
and otherwise run the chunk-moving loop; the returned length drops the
trailing dot when n is an exact multiple of 63. -/
def addLabelDots (q : List Nat) (n : Nat) : Except Unit (List Nat × Nat) :=
  if q.length < n + n / 63 then .error ()
  else if n ≤ 63 then .ok (q, n)
  else
    .ok (aldLoop q n (n / 63),
         if n % 63 = 0 then n + n / 63 - 1 else n + n / 63)

/-- The dotted segments for chunks 1..c of the original buffer, each
segment preceded by a dot: the closed form of the loop's effect beyond
position 63. -/
def dotSegs (q : List Nat) (n : Nat) : Nat → List Nat
  | 0 => []
  | c + 1 =>
    dotSegs q n c ++
      dotB :: (q.drop (63 * (c + 1))).take
        (min (63 * (c + 1) + 63) n - 63 * (c + 1))

/-- goCopyDot splits as: untouched prefix, the dot, the moved segment,
and the untouched tail. -/
theorem goCopyDot_eq (q : List Nat) (s e k : Nat) (hk : 1 ≤ k)
    (hlen : s + k ≤ q.length) :
    goCopyDot q s e k =
      q.take (s + k - 1) ++
        dotB :: ((q.drop s).take (e - s) ++ q.drop (e + k)) := by
  have hidx : s + k - 1 <
      (q.take (s + k) ++
        ((q.drop s).take (e - s) ++ q.drop (e + k))).length := by
    simp only [List.length_append, List.length_take, List.length_drop]
    omega
  rw [goCopyDot, List.set_eq_take_cons_drop dotB hidx]
  congr 1
  · rw [List.take_append_of_le_length
      (by simp only [List.length_take]; omega)]
    rw [List.take_take]
    congr 1
    omega
  · congr 1
    have hsk : s + k - 1 + 1 = s + k := by omega
    rw [hsk]
    exact List.drop_left' (by simp only [List.length_take]; omega)

/-- dotSegs only looks at the first 63*c + 63 bytes of the buffer. -/
theorem dotSegs_congr (n : Nat) : ∀ (c : Nat) (q1 q2 : List Nat),
    q1.take (63 * c + 63) = q2.take (63 * c + 63) →
    dotSegs q1 n c = dotSegs q2 n c := by
  intro c
  induction c with
  | zero => intro q1 q2 _; rfl
  | succ c ih =>
    intro q1 q2 htake
    have hsub : q1.take (63 * c + 63) = q2.take (63 * c + 63) := by
      have h1 : q1.take (63 * c + 63) =
          (q1.take (63 * (c + 1) + 63)).take (63 * c + 63) := by
        rw [List.take_take]; congr 1; omega
      have h2 : q2.take (63 * c + 63) =
          (q2.take (63 * (c + 1) + 63)).take (63 * c + 63) := by
        rw [List.take_take]; congr 1; omega
      rw [h1, h2, htake]
    have key : ∀ (q : List Nat),
        (q.drop (63 * (c + 1))).take
            (min (63 * (c + 1) + 63) n - 63 * (c + 1)) =
          ((q.take (63 * (c + 1) + 63)).drop (63 * (c + 1))).take
            (min (63 * (c + 1) + 63) n - 63 * (c + 1)) := by
      intro q
      rw [List.drop_take, List.take_take]
      congr 1
      omega
    simp only [dotSegs]
    rw [ih q1 q2 hsub, key q1, key q2, htake]

/-- The length of the dotted segments for chunks 1..c. -/
theorem dotSegs_length (n : Nat) : ∀ (c : Nat) (q : List Nat),
    c ≤ n / 63 → 63 ≤ n → n + n / 63 ≤ q.length →
    (dotSegs q n c).length = c + (min (63 * c + 63) n - 63) := by
  intro c
  induction c with
  | zero =>
    intro q _ h63 _
    simp only [dotSegs, List.length_nil]
    omega
  | succ c ih =>
    intro q hc h63 hlen
    simp only [dotSegs, List.length_append, List.length_cons,
      List.length_take, List.length_drop]
    rw [ih q (by omega) h63 hlen]
    omega

/-- Closed form of the AddLabelDots loop: the first 63 bytes are
untouched, chunks 1..c appear dot-separated, and the rest of the buffer
is shifted by c positions. -/
theorem aldLoop_closed (n : Nat) (h63 : 63 ≤ n) : ∀ (c : Nat) (q : List Nat),
    c ≤ n / 63 → n + n / 63 ≤ q.length →
    aldLoop q n c =
      q.take 63 ++ dotSegs q n c ++ q.drop (min (63 * c + 63) n + c) := by
  intro c
  induction c with
  | zero =>
    intro q _ _
    have hm : min (63 * 0 + 63) n + 0 = 63 := by omega
    show q = q.take 63 ++ dotSegs q n 0 ++ q.drop (min (63 * 0 + 63) n + 0)
    rw [hm]
    simp [dotSegs, List.take_append_drop]
  | succ c ih =>
    intro q hc hlen
    have hsn : 63 * (c + 1) ≤ n := by omega
    set s := 63 * (c + 1) with hs
    set e := min (s + 63) n with he
    have hse : s ≤ e := by omega
    have hen : e ≤ n := by omega
    have hlenq : s + (c + 1) ≤ q.length := by omega
    have hq2 : goCopyDot q s e (c + 1) =
        q.take (s + c) ++
          dotB :: ((q.drop s).take (e - s) ++ q.drop (e + (c + 1))) := by
      rw [goCopyDot_eq q s e (c + 1) (by omega) hlenq]
      have hsk : s + (c + 1) - 1 = s + c := by omega
      rw [hsk]
    have hq2len : (goCopyDot q s e (c + 1)).length = q.length := by
      rw [hq2]
      simp only [List.length_append, List.length_cons, List.length_take,
        List.length_drop]
      omega
    have hstep : aldLoop q n (c + 1) = aldLoop (goCopyDot q s e (c + 1)) n c := rfl
    rw [hstep, ih (goCopyDot q s e (c + 1)) (by omega)
      (by rw [hq2len]; exact hlen)]
    have ht63 : (goCopyDot q s e (c + 1)).take 63 = q.take 63 := by
      rw [hq2, List.take_append_of_le_length
        (by simp only [List.length_take]; omega)]
      rw [List.take_take]
      congr 1
      omega
    have hsegs : dotSegs (goCopyDot q s e (c + 1)) n c = dotSegs q n c := by
      apply dotSegs_congr
      rw [hq2, List.take_append_of_le_length
        (by simp only [List.length_take]; omega)]
      rw [List.take_take]
      congr 1
      omega
    have hdrop : (goCopyDot q s e (c + 1)).drop (min (63 * c + 63) n + c) =
        dotB :: ((q.drop s).take (e - s) ++ q.drop (e + (c + 1))) := by
      have hmin : min (63 * c + 63) n + c = s + c := by omega
      rw [hmin, hq2]
      exact List.drop_left' (by simp only [List.length_take]; omega)
    rw [ht63, hsegs, hdrop]
    simp only [dotSegs]
    rw [← hs, ← he]
    simp [List.append_assoc]

/-- Deleting the dots out of the dotted segments for chunks 1..c yields
the original bytes from position 63 up to the covered end. -/
theorem removeDots_dotSegs (n : Nat) (h63 : 63 ≤ n) :
    ∀ (c : Nat) (q : List Nat), c ≤ n / 63 →
    (∀ b ∈ q.take n, b ≠ dotB) →
    removeDots (dotSegs q n c) =
      (q.drop 63).take (min (63 * c + 63) n - 63) := by
  intro c
  induction c with
  | zero =>
    intro q _ _
    have hm : min (63 * 0 + 63) n = 63 := by omega
    simp [dotSegs, removeDots, hm]
  | succ c ih =>
    intro q hc hnd
    have hsn : 63 * (c + 1) ≤ n := by omega
    simp only [dotSegs]
    rw [removeDots_append, ih q (by omega) hnd]
    have hseg_mem : ∀ b ∈ (q.drop (63 * (c + 1))).take
        (min (63 * (c + 1) + 63) n - 63 * (c + 1)), b ∈ q.take n := by
      intro b hb
      set a := 63 * (c + 1) with ha
      set w := min (a + 63) n - a with hw
      have h1 : (q.drop a).take w = (q.take (a + w)).drop a := by
        rw [List.drop_take]
        congr 1
        omega
      rw [h1] at hb
      have h2 : b ∈ q.take (a + w) := List.mem_of_mem_drop hb
      have h4 : q.take (a + w) = (q.take n).take (a + w) := by
        rw [List.take_take]
        congr 1
        omega
      rw [h4] at h2
      exact List.mem_of_mem_take h2
    have hseg : removeDots (dotB :: (q.drop (63 * (c + 1))).take
        (min (63 * (c + 1) + 63) n - 63 * (c + 1))) =
        (q.drop (63 * (c + 1))).take
          (min (63 * (c + 1) + 63) n - 63 * (c + 1)) := by
      have : removeDots (dotB :: (q.drop (63 * (c + 1))).take
          (min (63 * (c + 1) + 63) n - 63 * (c + 1))) =
          removeDots ((q.drop (63 * (c + 1))).take
            (min (63 * (c + 1) + 63) n - 63 * (c + 1))) := by
        simp [removeDots]
      rw [this]
      exact removeDots_eq_self (fun b hb => hnd b (hseg_mem b hb))
    rw [hseg]
    have hm1 : min (63 * c + 63) n - 63 = 63 * c := by omega
    rw [hm1]
    rw [show min (63 * (c + 1) + 63) n - 63 =
      63 * c + (min (63 * (c + 1) + 63) n - 63 * (c + 1)) from by omega]
    rw [List.take_add]
    rw [List.drop_drop]
    rw [show (63 : Nat) + 63 * c = 63 * (c + 1) from by omega]

/-- C8: splitting a dot-free string into dot-separated labels of at most
63 bytes and then deleting every dot reproduces the string exactly — for
AddLabelDots (acting in place on the first n bytes of a buffer, for
every n the function accepts) and for SplitIntoLabels. -/
theorem c8_label_roundtrip :
    (∀ (q : List Nat) (n : Nat),
        (∀ b ∈ q.take n, b ≠ dotB) →
        ∀ (r : List Nat) (len : Nat),
          addLabelDots q n = .ok (r, len) →
          removeDots (r.take len) = q.take n) ∧
    (∀ s : List Nat, (∀ b ∈ s, b ≠ dotB) →
        removeDots (splitIntoLabels s) = s) := by
  constructor
  · intro q n hnd r len hok
    rw [addLabelDots] at hok
    by_cases h1 : q.length < n + n / 63
    case pos => rw [if_pos h1] at hok; exact absurd hok (by simp)
    rw [if_neg h1] at hok
    by_cases h2 : n ≤ 63
    case pos =>
      rw [if_pos h2] at hok
      rw [Except.ok.injEq, Prod.mk.injEq] at hok
      rw [← hok.1, ← hok.2]
      exact removeDots_eq_self hnd
    rw [if_neg h2] at hok
    rw [Except.ok.injEq, Prod.mk.injEq] at hok
    have h63 : 63 ≤ n := by omega
    have hsp : n + n / 63 ≤ q.length := by omega
    set m := n / 63 with hm
    have hm1 : 1 ≤ m := by omega
    have hclosed := aldLoop_closed n h63 m q le_rfl hsp
    have hminm : min (63 * m + 63) n = n := by omega
    rw [hminm] at hclosed
    have hdlen : (dotSegs q n m).length = m + (n - 63) := by
      rw [dotSegs_length n m q le_rfl h63 hsp, hminm]
    have ht63nd : removeDots (q.take 63) = q.take 63 := by
      apply removeDots_eq_self
      intro b hb
      apply hnd
      have : q.take 63 = (q.take n).take 63 := by
        rw [List.take_take]
        congr 1
        omega
      rw [this] at hb
      exact List.mem_of_mem_take hb
    by_cases hmod : n % 63 = 0
    · -- exact multiple: the last segment is empty and the trailing dot
      -- falls outside the returned length
      have hn63m : n = 63 * m := by omega
      have hlen2 : len = n + m - 1 := by
        rw [← hok.2]
        simp [hmod]
      have hsegsplit : dotSegs q n m = dotSegs q n (m - 1) ++ [dotB] := by
        have hm2 : m = (m - 1) + 1 := by omega
        rw [hm2]
        simp only [dotSegs]
        have hempty : min (63 * (m - 1 + 1) + 63) n - 63 * (m - 1 + 1) = 0 := by
          omega
        rw [hempty]
        simp
      have hr : r = (q.take 63 ++ dotSegs q n (m - 1)) ++
          ([dotB] ++ q.drop (n + m)) := by
        rw [← hok.1, hclosed, hsegsplit]
        simp [List.append_assoc]
      have halen : (q.take 63 ++ dotSegs q n (m - 1)).length = n + m - 1 := by
        have hd1 : (dotSegs q n (m - 1)).length =
            (m - 1) + (min (63 * (m - 1) + 63) n - 63) := by
          exact dotSegs_length n (m - 1) q (by omega) h63 hsp
        simp only [List.length_append, List.length_take]
        rw [hd1]
        omega
      have htake : r.take len = q.take 63 ++ dotSegs q n (m - 1) := by
        rw [hr, hlen2]
        exact List.take_left' halen
      rw [htake, removeDots_append, ht63nd,
        removeDots_dotSegs n h63 (m - 1) q (by omega) hnd]
      have hmin2 : min (63 * (m - 1) + 63) n - 63 = n - 63 := by omega
      rw [hmin2]
      rw [show n = 63 + (n - 63) from by omega, List.take_add]
      simp
    · have hlen2 : len = n + m := by
        rw [← hok.2]
        simp [hmod]
      have hr : r = (q.take 63 ++ dotSegs q n m) ++ q.drop (n + m) := by
        rw [← hok.1, hclosed]
      have halen : (q.take 63 ++ dotSegs q n m).length = n + m := by
        simp only [List.length_append, List.length_take]
        rw [hdlen]
        omega
      have htake : r.take len = q.take 63 ++ dotSegs q n m := by
        rw [hr, hlen2]
        exact List.take_left' halen
      rw [htake, removeDots_append, ht63nd,
        removeDots_dotSegs n h63 m q le_rfl hnd, hminm]
      rw [show n = 63 + (n - 63) from by omega, List.take_add]
      simp
  · intro s hnd
    exact removeDots_splitIntoLabels s hnd

/-- Witness for c8_label_roundtrip at the boundary length 64 (and 63 for
SplitIntoLabels): a 64-byte dot-free string in a 70-byte buffer
round-trips through AddLabelDots, and a 63-byte string through
SplitIntoLabels. -/
theorem c8_label_roundtrip_witness :
    removeDots (((aldLoop (List.replicate 64 65 ++ List.replicate 6 0)
        64 1)).take 65) = List.replicate 64 65 ∧
    removeDots (splitIntoLabels (List.replicate 63 66)) =
      List.replicate 63 66 := by
  constructor
  · have h := c8_label_roundtrip.1 (List.replicate 64 65 ++ List.replicate 6 0)
      64 (by decide)
      (aldLoop (List.replicate 64 65 ++ List.replicate 6 0) 64 1) 65
      (by rfl)
    have htake : (List.replicate 64 65 ++ (List.replicate 6 0 : List Nat)).take 64 =
        List.replicate 64 65 := by decide
    rw [htake] at h
    exact h
  · exact c8_label_roundtrip.2 (List.replicate 63 66) (by decide)

/-! ## Base32hex, uvarints, and the client payload marshallers

The repository uses base32.HexEncoding with no padding (alphabet
0-9 A-V) on both sides, and encoding/binary uvarints for the connection
ID.  The two revisions of the client marshaller are both embedded:
the package-level marshalPayload (with its "payload too large" length
check) and the later Client.marshalPayload method (which has no length
check and lower-cases the result). -/

/-- Exactly w big-endian base-b digits of n (most significant first). -/
def natDigitsBE (b : Nat) : Nat → Nat → List Nat
  | 0, _ => []
  | w + 1, n => natDigitsBE b w (n / b) ++ [n % b]

/-- natDigitsBE always yields exactly w digits. -/
theorem natDigitsBE_length (b : Nat) :
    ∀ (w n : Nat), (natDigitsBE b w n).length = w := by
  intro w
  induction w with
  | zero => intro n; rfl
  | succ w ih => intro n; simp [natDigitsBE, ih]

/-- The base32hex digit alphabet 0123456789ABCDEFGHIJKLMNOPQRSTUV as a
map from digit value to ASCII code. -/
def b32char (d : Nat) : Nat := if d < 10 then 48 + d else 55 + d

/-- Big-endian value of a byte string. -/
def beVal (l : List Nat) : Nat := l.foldl (fun a x => a * 256 + x) 0

/-- Encode one group of 1 to 5 bytes: its bits, left-aligned in 5-bit
units, as ceil(8*len/5) base32hex characters (Go produces 8 characters
per full 5-byte group and 2/4/5/7 for partial groups). -/
def b32encGroup (g : List Nat) : List Nat :=
  let nchars := (8 * g.length + 4) / 5
  (natDigitsBE 32 nchars (beVal g <<< (5 * nchars - 8 * g.length))).map
    b32char

/-- base32.HexEncoding.WithPadding(NoPadding).Encode: encode the input in
5-byte groups, the final group possibly partial (Go's loop over
src[5:]). -/
def b32encode : List Nat → List Nat
  | [] => []
  | a :: b :: c :: d :: e :: rest =>
    b32encGroup [a, b, c, d, e] ++ b32encode rest
  | g => b32encGroup g

/-- EncodedLen of the unpadded base32 encoding. -/
def encodedLen (n : Nat) : Nat := (8 * n + 4) / 5

/-- b32encode unfolds one 5-byte (or final partial) group at a time. -/
theorem b32encode_eq (p : List Nat) (h : p ≠ []) :
    b32encode p = b32encGroup (p.take 5) ++ b32encode (p.drop 5) := by
  match p with
  | [] => exact absurd rfl h
  | [a] => simp [b32encode]
  | [a, b] => simp [b32encode]
  | [a, b, c] => simp [b32encode]
  | [a, b, c, d] => simp [b32encode]
  | a :: b :: c :: d :: e :: rest => rfl

/-- The encoder emits exactly EncodedLen characters. -/
theorem b32encode_length (p : List Nat) :
    (b32encode p).length = encodedLen p.length := by
  have main : ∀ (fuel : Nat) (p : List Nat), p.length ≤ fuel →
      (b32encode p).length = encodedLen p.length := by
    intro fuel
    induction fuel with
    | zero =>
      intro p hp
      have hnil : p = [] := by
        cases p with
        | nil => rfl
        | cons a r => simp at hp
      simp [hnil, b32encode, encodedLen]
    | succ f ih =>
      intro p hp
      by_cases h : p = []
      · simp [h, b32encode, encodedLen]
      · rw [b32encode_eq p h]
        rw [List.length_append]
        have hg : (b32encGroup (p.take 5)).length =
            (8 * min 5 p.length + 4) / 5 := by
          simp [b32encGroup, natDigitsBE_length, List.length_take]
        have hr : (b32encode (p.drop 5)).length =
            encodedLen (p.length - 5) := by
          have := ih (p.drop 5) (by simp only [List.length_drop]; omega)
          simpa using this
        rw [hg, hr]
        have hpos : 0 < p.length := List.length_pos.mpr h
        simp only [encodedLen]
        omega
  exact main p.length p le_rfl

/-- The base32hex decode map: digit value of an ASCII character, none for
characters outside the alphabet. -/
def b32val (c : Nat) : Option Nat :=
  if 48 ≤ c ∧ c ≤ 57 then some (c - 48)
  else if 65 ≤ c ∧ c ≤ 86 then some (c - 55)
  else none

/-- Decode one group of at most 8 base32hex digit values into 5*len/8
bytes (group lengths 1, 3 and 6 cannot arise from an encoder and are
corrupt input). -/
def b32decGroup (vs : List Nat) : Option (List Nat) :=
  if vs.length = 1 ∨ vs.length = 3 ∨ vs.length = 6 then none
  else
    let nbytes := 5 * vs.length / 8
    let v := (vs.foldl (fun a x => a * 32 + x) 0) <<< (40 - 5 * vs.length)
    some ((natDigitsBE 256 5 v).take nbytes)

/-- Decode a list of base32hex digit values in 8-character groups, the
final group possibly partial. -/
def b32decodeVals : List Nat → Option (List Nat)
  | [] => some []
  | v1 :: v2 :: v3 :: v4 :: v5 :: v6 :: v7 :: v8 :: rest =>
    match b32decGroup [v1, v2, v3, v4, v5, v6, v7, v8],
        b32decodeVals rest with
    | some a, some b => some (a ++ b)
    | _, _ => none
  | l => b32decGroup l

/-- base32.HexEncoding.WithPadding(NoPadding).Decode: map characters to
digit values (failing on any character outside the alphabet), then
decode in groups. -/
def b32decode (s : List Nat) : Option (List Nat) :=
  match s.mapM b32val with
  | none => none
  | some vs => b32decodeVals vs

/-- The loop of binary.PutUvarint with an explicit iteration budget:
little-endian groups of 7 bits, high bit set on every byte but the last.
Ten iterations cover every uint64, so the budget in putUvarint is never
exhausted. -/
def putUvarintGo : Nat → Nat → List Nat
  | 0, n => [n % 128]
  | f + 1, n =>
    if n < 128 then [n] else (n % 128 + 128) :: putUvarintGo f (n / 128)

/-- binary.PutUvarint. -/
def putUvarint (n : Nat) : List Nat := putUvarintGo 10 n

/-- The loop of binary.Uvarint.  Returns (value, count); count 0 means
the buffer ended inside the varint and a negative count means overflow.
Accumulation uses + in place of Go's |, which agree because each byte
contributes a disjoint 7-bit range below the current shift. -/
def uvarintLoop : List Nat → Nat → Nat → Nat → Nat × Int
  | [], _, _, _ => (0, 0)
  | b :: rest, i, x, s =>
    if i = 10 then (0, -(Int.ofNat i + 1))
    else if b < 128 then
      if i = 9 ∧ 1 < b then (0, -(Int.ofNat i + 1))
      else ((x + b <<< s) % 2 ^ 64, Int.ofNat i + 1)
    else uvarintLoop rest (i + 1) ((x + (b % 128) <<< s) % 2 ^ 64) (s + 7)

/-- binary.Uvarint. -/
def uvarint (buf : List Nat) : Nat × Int := uvarintLoop buf 0 0 0

/-- The errors of the client payload marshallers. -/
inductive MarshalErr
  | payloadTooLarge
  | insufficientSpace
  deriving Repr, DecidableEq

/-- maxdomainlen, the longest name the client will build. -/
def maxdomainlen : Nat := 253

/-- SplitIntoLabels emits one dot per started 63-byte chunk except for a
final partial chunk. -/
theorem splitIntoLabels_length (s : List Nat) :
    (splitIntoLabels s).length = s.length + s.length / 63 := by
  have main : ∀ (fuel : Nat) (s : List Nat), s.length ≤ fuel →
      (splitIntoLabels s).length = s.length + s.length / 63 := by
    intro fuel
    induction fuel with
    | zero =>
      intro s hs
      have hnil : s = [] := by
        cases s with
        | nil => rfl
        | cons a r => simp at hs
      simp [hnil, splitIntoLabels]
    | succ f ih =>
      intro s hs
      by_cases h : s.length < 63
      · rw [splitIntoLabels]
        simp only [h, dite_true]
        omega
      · rw [splitIntoLabels]
        simp only [h, dite_false]
        simp only [List.length_append, List.length_cons, List.length_take]
        rw [ih (s.drop 63) (by simp only [List.length_drop]; omega)]
        simp only [List.length_drop]
        omega
  exact main s.length s le_rfl

/-- The package-level marshalPayload of the earlier dnsconnclient
revision: concatenate the uvarint CID and the payload, refuse when the
base32 form plus dots plus domain would exceed 253 bytes, base32-encode,
dot-split (the inline loop is the SplitIntoLabels recursion), append a
dot and the domain, and copy into the output buffer of the given
length. -/
def marshalPayloadOld (outLen : Nat) (cid payload domain : List Nat) :
    Except MarshalErr (List Nat) :=
  let mbuf := cid ++ payload
  let el := encodedLen mbuf.length
  if maxdomainlen < el + el / 63 + 1 + domain.length then
    .error .payloadTooLarge
  else
    let ebuf := b32encode mbuf
    let dotted := if 63 < ebuf.length then splitIntoLabels ebuf else ebuf
    let out := dotted ++ dotB :: domain
    if outLen < out.length then .error .insufficientSpace
    else .ok out

/-- C9 amended: the earlier package-level marshalPayload never returns a
name longer than 253 octets — whenever it returns a name at all, the
name (framing, base32 labels, dots and domain included) fits in 253
bytes; oversized payloads fail with the "payload too large" error
first. -/
theorem c9_marshal_bounded (outLen : Nat) (cid payload domain : List Nat)
    (name : List Nat)
    (hok : marshalPayloadOld outLen cid payload domain = .ok name) :
    name.length ≤ 253 := by
  rw [marshalPayloadOld] at hok
  by_cases h1 : maxdomainlen <
      encodedLen (cid ++ payload).length +
        encodedLen (cid ++ payload).length / 63 + 1 + domain.length
  · rw [if_pos h1] at hok
    exact absurd hok (by simp)
  · rw [if_neg h1] at hok
    by_cases h2 : outLen <
        ((if 63 < (b32encode (cid ++ payload)).length then
            splitIntoLabels (b32encode (cid ++ payload))
          else b32encode (cid ++ payload)) ++ dotB :: domain).length
    · rw [if_pos h2] at hok
      exact absurd hok (by simp)
    · rw [if_neg h2] at hok
      rw [Except.ok.injEq] at hok
      rw [← hok]
      simp only [List.length_append, List.length_cons]
      have hel := b32encode_length (cid ++ payload)
      by_cases h3 : 63 < (b32encode (cid ++ payload)).length
      · rw [if_pos h3, splitIntoLabels_length, hel]
        simp only [maxdomainlen] at h1
        omega
      · rw [if_neg h3]
        simp only [maxdomainlen] at h1
        omega

/-- Witness for c9_marshal_bounded on a small concrete input. -/
theorem c9_marshal_bounded_witness :
    (b32encode ([5] ++ [104, 105]) ++ dotB :: strBytes "a.test.").length
      ≤ 253 :=
  c9_marshal_bounded 1024 [5] [104, 105] (strBytes "a.test.")
    (b32encode ([5] ++ [104, 105]) ++ dotB :: strBytes "a.test.") (by rfl)

/-- Base32Encode of dnsconnclient/encode.go (the Client.marshalPayload
encoder): base32-encode into the output buffer of the given length, then
dot-split its first EncodedLen bytes in place with AddLabelDots, whose
buffer-too-small error makes Base32Encode panic (none).  Returns the
reported length and the buffer. -/
def base32EncodeGo (olen : Nat) (p : List Nat) : Option (Nat × List Nat) :=
  let el := encodedLen p.length
  let o := b32encode p ++ List.replicate (olen - el) 0
  match addLabelDots o el with
  | .error _ => none
  | .ok (q2, n) => some (n, q2)

/-- Client.marshalPayload of dnsconnclient/client.go: concatenate the
stored CID bytes and the payload, encode with Base32Encode (pool buffers
are 1024 bytes), append a dot and the domain, lower-case every byte, and
copy to the output buffer (1024 bytes from the pool in sendPayload).
There is no name-length check.  none models a panic inside the
encoder. -/
def clientMarshalPayload (cid payload domain : List Nat) :
    Option (Except MarshalErr (List Nat)) :=
  let mbuf := cid ++ payload
  match base32EncodeGo 1024 mbuf with
  | none => none
  | some (n, o) =>
    let ebuf := o.take n ++ dotB :: domain
    let low := ebuf.map toLowerByte
    some (if 1024 < low.length then .error .insufficientSpace else .ok low)

/-- The length of the name Client.marshalPayload hands to lookup, when it
returns one. -/
def marshalledLenNew (cid payload domain : List Nat) : Option Nat :=
  match clientMarshalPayload cid payload domain with
  | some (.ok l) => some l.length
  | _ => none

set_option maxRecDepth 1000000 in
/-- C9 fails as stated for Client.marshalPayload: with a 160-byte payload
and the domain example.com., the marshaller succeeds (no error at all,
in particular no "payload too large") and hands lookup a 275-octet
query name, exceeding the 253-octet limit. -/
theorem c9_no_length_check :
    marshalledLenNew [5] (List.replicate 160 65) (strBytes "example.com.")
      = some 275 ∧ 253 < 275 := by
  constructor
  · decide
  · decide

/-! ## Server-side query-name decoding (Listener.handleQuery and
Listener.handleQuestion)

Listen stores the served domain lower-cased as "." + Trim(domain, ".")
+ ".".  handleQuery upper-cases the incoming name, strips the stored
domain suffix (rejecting the query as unserved when it is not a suffix),
removes dots and hyphens and passes the rest to handleQuestion, which
removes dots, upper-cases, base32hex-decodes and reads the leading
uvarint connection ID. -/

/-- strings.Trim(domain, "."): drop leading and trailing dots. -/
def trimDots (s : List Nat) : List Nat :=
  ((s.dropWhile (fun b => b == dotB)).reverse.dropWhile
    (fun b => b == dotB)).reverse

/-- The domain as stored by Listen:
strings.ToLower("." + strings.Trim(domain, ".") + "."). -/
def listenDomain (domain : List Nat) : List Nat :=
  (dotB :: (trimDots domain ++ [dotB])).map toLowerByte

/-- Listener.removeDomain: strings.TrimSuffix plus the
strings.HasSuffix flag. -/
def removeDomain (ldom q : List Nat) : List Nat × Bool :=
  (if ldom.isSuffixOf q then q.take (q.length - ldom.length) else q,
   ldom.isSuffixOf q)

/-- The error outcomes of the server-side decode path. -/
inductive SrvErr
  | unservedDomain
  | badBase32
  | cidBufTooSmall
  | cidOverflow
  | cidTooLarge
  deriving Repr, DecidableEq

/-- Listener.handleQuestion up to connection dispatch: remove dots,
upper-case, base32hex-decode, then read the leading uvarint connection
ID, rejecting CIDs above cidMAX.  Returns the CID and the remaining
payload bytes. -/
def handleQuestionDecode (q : List Nat) : Except SrvErr (Nat × List Nat) :=
  let q1 := (q.filter (fun b => b ≠ dotB)).map toUpperByte
  match b32decode q1 with
  | none => .error .badBase32
  | some buf =>
    let r := uvarint buf
    if r.2 = 0 then .error .cidBufTooSmall
    else if r.2 < 0 then .error .cidOverflow
    else if (0x00ffffff : Nat) < r.1 then .error .cidTooLarge
    else .ok (r.1, buf.drop r.2.toNat)

/-- The decode path of Listener.handleQuery as coded: upper-case the
name first, then strip the stored (lower-cased) domain, remove dots and
hyphens, and decode. -/
def handleQueryDecode (ldom q : List Nat) : Except SrvErr (Nat × List Nat) :=
  let qU := q.map toUpperByte
  let rd := removeDomain ldom qU
  if rd.2 then handleQuestionDecode (removeDotsAndHyphens rd.1)
  else .error .unservedDomain

/-- The same decode steps in the order the round-trip needs them: strip
the served-domain suffix from the name as transmitted, then remove dots
and hyphens and decode (handleQuestionDecode performs the
upper-casing). -/
def stripFirstDecode (ldom q : List Nat) : Except SrvErr (Nat × List Nat) :=
  let rd := removeDomain ldom q
  if rd.2 then handleQuestionDecode (removeDotsAndHyphens rd.1)
  else .error .unservedDomain

/-- The query name the client sends for CID 5 and payload "hi" to the
served domain a.test. -/
def c2name : List Nat :=
  match clientMarshalPayload (putUvarint 5) (strBytes "hi")
      (strBytes "a.test.") with
  | some (.ok l) => l
  | _ => []

set_option maxRecDepth 1000000 in
/-- C2 fails on the code: the name the client marshals for CID 5 and
payload "hi" under the served domain a.test is rejected by the
handleQuery pipeline as an unserved domain — handleQuery upper-cases the
name before comparing its suffix against the lower-cased stored domain,
so the (lower-case) client name never matches and is never decoded.
Stripping the suffix before any upper-casing (the order the claim
lists), the rest of the coded pipeline decodes the name to exactly
CID 5 and payload "hi". -/
theorem c2_decode_roundtrip_broken :
    handleQueryDecode (listenDomain (strBytes "a.test")) c2name =
      .error .unservedDomain ∧
    stripFirstDecode (listenDomain (strBytes "a.test")) c2name =
      .ok (5, strBytes "hi") := by
  constructor
  · rfl
  · rfl

/-! ## Single-flight deduplication (Listener.handleQuery)

handleQuery allocates a fresh cachedAnswer cell, installs it with
Cache.GetOrPut (atomic under the cache lock), and compares the returned
cell with its own: the caller whose cell was installed computes the
answer with handleQuestion and publishes it into the cell (answer write,
valid flag and broadcast all under the cell's lock), while any other
caller for the same name waits until the cell is valid and returns the
published answer (reads also under the cell's lock).

Two concurrent callers for the same name are modelled as a two-task
transition system whose atomic steps are exactly those lock-protected
blocks.  Cache cells are identified by the task that allocated them
(a Fin 2 value); cell holds the contents of the installed cell (none
while not valid); count counts handleQuestion invocations; res0/res1
are the tasks' return values. -/

/-- The program counter of one handleQuery task. -/
inductive C7Pc
  | start
  | compute
  | waitAns
  | finished
  deriving Repr, DecidableEq

/-- A configuration of the two-task handleQuery system. -/
structure C7Conf where
  cache : Cache (Fin 2)
  cell : Option (List Nat)
  count : Nat
  pc0 : C7Pc
  pc1 : C7Pc
  res0 : Option (List Nat)
  res1 : Option (List Nat)

/-- The atomic steps: each task runs GetOrPut (installing its own cell
or receiving the already-installed one), then either computes and
publishes the answer (the winner) or waits until the cell is valid and
reads it (the loser).  nm is the query name, f the pure answer function
standing for handleQuestion. -/
inductive C7Step (nm : String) (f : String → List Nat) :
    C7Conf → C7Conf → Prop
  | lookup0 (c : C7Conf) (h : c.pc0 = .start) :
      C7Step nm f c
        { c with
            cache := (c.cache.getOrPut nm 0).2,
            pc0 := if (c.cache.getOrPut nm 0).1 = 0 then .compute
              else .waitAns }
  | lookup1 (c : C7Conf) (h : c.pc1 = .start) :
      C7Step nm f c
        { c with
            cache := (c.cache.getOrPut nm 1).2,
            pc1 := if (c.cache.getOrPut nm 1).1 = 1 then .compute
              else .waitAns }
  | compute0 (c : C7Conf) (h : c.pc0 = .compute) :
      C7Step nm f c
        { c with count := c.count + 1, cell := some (f nm),
                 res0 := some (f nm), pc0 := .finished }
  | compute1 (c : C7Conf) (h : c.pc1 = .compute) :
      C7Step nm f c
        { c with count := c.count + 1, cell := some (f nm),
                 res1 := some (f nm), pc1 := .finished }
  | read0 (c : C7Conf) (a : List Nat) (h : c.pc0 = .waitAns)
      (hc : c.cell = some a) :
      C7Step nm f c { c with res0 := some a, pc0 := .finished }
  | read1 (c : C7Conf) (a : List Nat) (h : c.pc1 = .waitAns)
      (hc : c.cell = some a) :
      C7Step nm f c { c with res1 := some a, pc1 := .finished }

/-- Both tasks about to start on a listener whose cache (capacity N)
does not hold the name. -/
def c7Init (N : Nat) : C7Conf :=
  ⟨emptyCache (Fin 2) N, none, 0, .start, .start, none, none⟩

/-- Reachability from the initial configuration. -/
def C7Reach (N : Nat) (nm : String) (f : String → List Nat)
    (c : C7Conf) : Prop :=
  Relation.ReflTransGen (C7Step nm f) (c7Init N) c

/-- The cache after the first GetOrPut installed task v's cell. -/
def oneCache (N : Nat) (nm : String) (v : Fin 2) : Cache (Fin 2) :=
  ⟨[⟨0, nm, v⟩], [(nm, 0)], 1, N, []⟩

/-- GetOrPut on the empty cache installs the offered cell and returns
it. -/
theorem getOrPut_empty (N : Nat) (hN : 1 ≤ N) (nm : String) (v : Fin 2) :
    (emptyCache (Fin 2) N).getOrPut nm v = (v, oneCache N nm v) := by
  have h0 : ¬ ((0 : Nat) = N) := by omega
  simp [Cache.getOrPut, Cache.unlockedGet, mapGet, emptyCache,
    Cache.unlockedPut, mapInsert, oneCache, h0]

/-- GetOrPut on a cache already holding the name returns the installed
cell and leaves the cache unchanged. -/
theorem getOrPut_one (N : Nat) (nm : String) (v w : Fin 2) :
    (oneCache N nm v).getOrPut nm w = (v, oneCache N nm v) := by
  simp [Cache.getOrPut, Cache.unlockedGet, mapGet, oneCache, List.find?]

/-- The inductive invariant: either nothing has happened yet, or exactly
one task's cell is installed; the installing task is either about to
compute (cell still empty, no invocation yet) or has published (cell
holds f nm, exactly one invocation); the other task has not looked up
yet, is waiting, or has finished by reading the published answer. -/
def C7Inv (N : Nat) (nm : String) (f : String → List Nat)
    (c : C7Conf) : Prop :=
  c = c7Init N ∨
  (c.cache = oneCache N nm 0 ∧
    ((c.pc0 = .compute ∧ c.cell = none ∧ c.count = 0 ∧ c.res0 = none) ∨
     (c.pc0 = .finished ∧ c.cell = some (f nm) ∧ c.count = 1 ∧
       c.res0 = some (f nm))) ∧
    ((c.pc1 = .start ∧ c.res1 = none) ∨
     (c.pc1 = .waitAns ∧ c.res1 = none) ∨
     (c.pc1 = .finished ∧ c.res1 = some (f nm) ∧
       c.cell = some (f nm)))) ∨
  (c.cache = oneCache N nm 1 ∧
    ((c.pc1 = .compute ∧ c.cell = none ∧ c.count = 0 ∧ c.res1 = none) ∨
     (c.pc1 = .finished ∧ c.cell = some (f nm) ∧ c.count = 1 ∧
       c.res1 = some (f nm))) ∧
    ((c.pc0 = .start ∧ c.res0 = none) ∨
     (c.pc0 = .waitAns ∧ c.res0 = none) ∨
     (c.pc0 = .finished ∧ c.res0 = some (f nm) ∧
       c.cell = some (f nm))))

/-- The invariant is preserved by every step. -/
theorem c7_inv_step (N : Nat) (nm : String) (f : String → List Nat)
    (hN : 1 ≤ N) (c c2 : C7Conf) (hstep : C7Step nm f c c2)
    (hinv : C7Inv N nm f c) : C7Inv N nm f c2 := by
  cases hstep with
  | lookup0 h =>
    rcases hinv with hinit | ⟨hc, hw, hl⟩ | ⟨hc, hw, hl⟩
    · subst hinit
      right; left
      rw [show (c7Init N).cache = emptyCache (Fin 2) N from rfl,
        getOrPut_empty N hN nm 0]
      refine ⟨rfl, Or.inl ⟨?_, rfl, rfl, rfl⟩, Or.inl ⟨rfl, rfl⟩⟩
      simp
    · rcases hw with ⟨hpc, _⟩ | ⟨hpc, _⟩ <;> rw [h] at hpc <;> cases hpc
    · right; right
      rw [hc, getOrPut_one N nm 1 0]
      have hne : ¬ ((1 : Fin 2) = 0) := by decide
      refine ⟨rfl, by simpa using hw, ?_⟩
      right; left
      refine ⟨by simp [hne], ?_⟩
      rcases hl with ⟨_, hr⟩ | ⟨hpc, _⟩ | ⟨hpc, _, _⟩
      · simpa using hr
      · rw [h] at hpc; cases hpc
      · rw [h] at hpc; cases hpc
  | lookup1 h =>
    rcases hinv with hinit | ⟨hc, hw, hl⟩ | ⟨hc, hw, hl⟩
    · subst hinit
      right; right
      rw [show (c7Init N).cache = emptyCache (Fin 2) N from rfl,
        getOrPut_empty N hN nm 1]
      refine ⟨rfl, Or.inl ⟨?_, rfl, rfl, rfl⟩, Or.inl ⟨rfl, rfl⟩⟩
      simp
    · right; left
      rw [hc, getOrPut_one N nm 0 1]
      have hne : ¬ ((0 : Fin 2) = 1) := by decide
      refine ⟨rfl, by simpa using hw, ?_⟩
      right; left
      refine ⟨by simp [hne], ?_⟩
      rcases hl with ⟨_, hr⟩ | ⟨hpc, _⟩ | ⟨hpc, _, _⟩
      · simpa using hr
      · rw [h] at hpc; cases hpc
      · rw [h] at hpc; cases hpc
    · rcases hw with ⟨hpc, _⟩ | ⟨hpc, _⟩ <;> rw [h] at hpc <;> cases hpc
  | compute0 h =>
    rcases hinv with hinit | ⟨hc, hw, hl⟩ | ⟨hc, hw, hl⟩
    · rw [hinit] at h; cases h
    · right; left
      refine ⟨by simpa using hc, Or.inr ⟨rfl, rfl, ?_, rfl⟩, ?_⟩
      · rcases hw with ⟨_, _, hcount, _⟩ | ⟨hpc, _⟩
        · simp [hcount]
        · rw [h] at hpc; cases hpc
      · rcases hl with ⟨hpc, hr⟩ | ⟨hpc, hr⟩ | ⟨hpc, hr, _⟩
        · exact Or.inl ⟨hpc, hr⟩
        · exact Or.inr (Or.inl ⟨hpc, hr⟩)
        · exact Or.inr (Or.inr ⟨hpc, hr, rfl⟩)
    · rcases hl with ⟨hpc, _⟩ | ⟨hpc, _⟩ | ⟨hpc, _, _⟩ <;>
        rw [h] at hpc <;> cases hpc
  | compute1 h =>
    rcases hinv with hinit | ⟨hc, hw, hl⟩ | ⟨hc, hw, hl⟩
    · rw [hinit] at h; cases h
    · rcases hl with ⟨hpc, _⟩ | ⟨hpc, _⟩ | ⟨hpc, _, _⟩ <;>
        rw [h] at hpc <;> cases hpc
    · right; right
      refine ⟨by simpa using hc, Or.inr ⟨rfl, rfl, ?_, rfl⟩, ?_⟩
      · rcases hw with ⟨_, _, hcount, _⟩ | ⟨hpc, _⟩
        · simp [hcount]
        · rw [h] at hpc; cases hpc
      · rcases hl with ⟨hpc, hr⟩ | ⟨hpc, hr⟩ | ⟨hpc, hr, _⟩
        · exact Or.inl ⟨hpc, hr⟩
        · exact Or.inr (Or.inl ⟨hpc, hr⟩)
        · exact Or.inr (Or.inr ⟨hpc, hr, rfl⟩)
  | read0 a h hc2 =>
    rcases hinv with hinit | ⟨hc, hw, hl⟩ | ⟨hc, hw, hl⟩
    · rw [hinit] at h; cases h
    · rcases hw with ⟨hpc, _⟩ | ⟨hpc, _⟩ <;> rw [h] at hpc <;> cases hpc
    · right; right
      have ha : a = f nm := by
        rcases hw with ⟨_, hcell, _, _⟩ | ⟨_, hcell, _, _⟩
        · rw [hcell] at hc2; cases hc2
        · rw [hcell] at hc2
          exact (Option.some_inj.mp hc2).symm
      refine ⟨by simpa using hc, by simpa using hw, ?_⟩
      right; right
      refine ⟨rfl, by simp [ha], ?_⟩
      rcases hw with ⟨_, hcell, _, _⟩ | ⟨_, hcell, _, _⟩
      · rw [hcell] at hc2; cases hc2
      · simpa using hcell
  | read1 a h hc2 =>
    rcases hinv with hinit | ⟨hc, hw, hl⟩ | ⟨hc, hw, hl⟩
    · rw [hinit] at h; cases h
    · right; left
      have ha : a = f nm := by
        rcases hw with ⟨_, hcell, _, _⟩ | ⟨_, hcell, _, _⟩
        · rw [hcell] at hc2; cases hc2
        · rw [hcell] at hc2
          exact (Option.some_inj.mp hc2).symm
      refine ⟨by simpa using hc, by simpa using hw, ?_⟩
      right; right
      refine ⟨rfl, by simp [ha], ?_⟩
      rcases hw with ⟨_, hcell, _, _⟩ | ⟨_, hcell, _, _⟩
      · rw [hcell] at hc2; cases hc2
      · simpa using hcell
    · rcases hw with ⟨hpc, _⟩ | ⟨hpc, _⟩ <;> rw [h] at hpc <;> cases hpc

/-- Every reachable configuration satisfies the invariant. -/
theorem c7_inv_reach (N : Nat) (nm : String) (f : String → List Nat)
    (hN : 1 ≤ N) (c : C7Conf) (hreach : C7Reach N nm f c) :
    C7Inv N nm f c := by
  induction hreach with
  | refl => exact Or.inl rfl
  | tail _ hstep ih => exact c7_inv_step N nm f hN _ _ hstep ih

/-- A capacity-1 cache that held the cell for name q until a Put of name
r evicted it (capacity pressure). -/
def c7evicted : Cache (Fin 2) :=
  (((emptyCache (Fin 2) 1).getOrPut "q" 0).2.put "r" 1).2

/-- C7: two concurrent handleQuery calls for the same (not yet cached)
name invoke the underlying question handler exactly once and both return
the identical published answer, in every interleaving; and after the
cache evicts a name (here by capacity pressure, with the eviction
callback invoked for it), a repeated GetOrPut for that name hands the
caller its own fresh cell back, so the answer may be recomputed. -/
theorem c7_single_flight (N : Nat) (nm : String) (f : String → List Nat)
    (hN : 1 ≤ N) :
    (∀ c : C7Conf, C7Reach N nm f c → c.pc0 = .finished →
      c.pc1 = .finished →
      c.count = 1 ∧ c.res0 = some (f nm) ∧ c.res1 = some (f nm)) ∧
    ((c7evicted.getOrPut "q" 1).1 = 1 ∧
      c7evicted.log = [("q", 0)]) := by
  constructor
  · intro c hreach h0 h1
    have hinv := c7_inv_reach N nm f hN c hreach
    rcases hinv with hinit | ⟨_, hw, hl⟩ | ⟨_, hw, hl⟩
    · rw [hinit] at h0; cases h0
    · rcases hw with ⟨hpc, _⟩ | ⟨_, _, hcount, hres⟩
      · rw [h0] at hpc; cases hpc
      · rcases hl with ⟨hpc, _⟩ | ⟨hpc, _⟩ | ⟨_, hres1, _⟩
        · rw [h1] at hpc; cases hpc
        · rw [h1] at hpc; cases hpc
        · exact ⟨hcount, hres, hres1⟩
    · rcases hw with ⟨hpc, _⟩ | ⟨_, _, hcount, hres⟩
      · rw [h1] at hpc; cases hpc
      · rcases hl with ⟨hpc, _⟩ | ⟨hpc, _⟩ | ⟨_, hres0, _⟩
        · rw [h0] at hpc; cases hpc
        · rw [h0] at hpc; cases hpc
        · exact ⟨hcount, hres0, hres⟩
  · constructor
    · rfl
    · rfl

/-- Witness for c7_single_flight: a full run of the two tasks (task 0
looks up, computes and publishes; task 1 looks up, waits and reads)
reaches a final configuration with one handler invocation and equal
answers. -/
theorem c7_single_flight_witness :
    let f : String → List Nat := fun _ => [17, 0, 0, 1]
    let s0 := c7Init 1
    let s1 : C7Conf := { s0 with
      cache := (s0.cache.getOrPut "q" 0).2,
      pc0 := (if (s0.cache.getOrPut "q" 0).1 = 0 then C7Pc.compute
        else C7Pc.waitAns) }
    let s2 : C7Conf := { s1 with
      count := s1.count + 1,
      cell := some (f "q"), res0 := some (f "q"), pc0 := .finished }
    let s3 : C7Conf := { s2 with
      cache := (s2.cache.getOrPut "q" 1).2,
      pc1 := (if (s2.cache.getOrPut "q" 1).1 = 1 then C7Pc.compute
        else C7Pc.waitAns) }
    let s4 : C7Conf := { s3 with res1 := some (f "q"), pc1 := .finished }
    s4.count = 1 ∧ s4.res0 = some (f "q") ∧ s4.res1 = some (f "q") := by
  intro f s0 s1 s2 s3 s4
  have hreach : C7Reach 1 "q" f s4 := by
    refine Relation.ReflTransGen.tail
      (Relation.ReflTransGen.tail
        (Relation.ReflTransGen.tail
          (Relation.ReflTransGen.tail Relation.ReflTransGen.refl
            (C7Step.lookup0 s0 rfl))
          (C7Step.compute0 s1 (by rfl)))
        (C7Step.lookup1 s2 rfl))
      (C7Step.read1 s3 (f "q") (by rfl) rfl)
  exact (c7_single_flight 1 "q" f (by decide)).1 s4 hreach rfl rfl

end Dnsconn
